import Mathlib

/-!
Verification of the path-reconstruction and checker-façade layer of an
explicit-state model checker (file `checker.rs`), over a shallow embedding.
States and actions are opaque type parameters with decidable equality
(mirroring the `Hash`/`PartialEq` bounds of the source); fingerprints are
natural numbers produced by an arbitrary deterministic hash function passed
as a parameter; Rust panics are modelled as `none`/`Except.error` results.
-/

set_option autoImplicit false

namespace Stateright

/-- Fingerprints hash-compress a state to a 64-bit identity; collisions are
accepted, so the embedding uses an arbitrary function into `Nat`. -/
abbrev Fingerprint := Nat

/-- Expectation of a property: one of Always, Eventually, Sometimes. -/
inductive Expectation where
  | always
  | eventually
  | sometimes
deriving DecidableEq, Repr

/-- Modelled from the spec: a Property is a triple of name, expectation and a
predicate over states.  The Rust condition closure also receives the model,
but every call site passes the checker's own fixed model, so the model
argument is pre-applied here. -/
structure Property (State : Type) where
  name : String
  expectation : Expectation
  condition : State → Bool

/-- Modelled from the spec: the Model contract consumed by the engine —
initial states, enabled actions for a state, deterministic optional
successor, and the property list.  (The `Model` trait itself lives outside
the provided source file.) -/
structure Model (State Action : Type) where
  init_states : List State
  actions : State → List Action
  next_state : State → Action → Option State
  properties : List (Property State)

variable {State Action : Type}

/-- Modelled from the spec: the derived `next_steps` helper pairs each
enabled action with its successor, silently dropping actions whose successor
function returns no state. -/
def Model.next_steps (m : Model State Action) (s : State) : List (Action × State) :=
  (m.actions s).filterMap (fun a => (m.next_state s a).map (fun t => (a, t)))

/-- Modelled from the spec: the derived `next_states` helper lists the
successors of the enabled actions, silently dropping disabled ones. -/
def Model.next_states (m : Model State Action) (s : State) : List State :=
  (m.actions s).filterMap (fun a => m.next_state s a)

/-- Modelled from the spec: `property` looks a property up by name; asking
for a name not in the property list is a programmer error (panic, here
`none`). -/
def Model.property (m : Model State Action) (name : String) : Option (Property State) :=
  m.properties.find? (fun p => decide (p.name = name))

/-- A path of states including actions, ending in a stateless tail:
`[(s0, some a0), ..., (sn, none)]`.  Wraps the vector of the Rust struct. -/
structure Path (State Action : Type) where
  pairs : List (State × Option Action)
deriving DecidableEq, Repr

/-- Loop body of `Path::from_fingerprints`: starting from the current last
state, repeatedly find the first `(action, successor)` pair whose successor
fingerprint matches the next element; `none` models the
"no next state matches fingerprint" panic. -/
def fromFingerprintsLoop (fp : State → Fingerprint) (m : Model State Action) :
    State → List Fingerprint → Option (List (State × Option Action))
  | last, [] => some [(last, none)]
  | last, next :: rest =>
    match (m.next_steps last).find? (fun pr => decide (fp pr.2 = next)) with
    | none => none
    | some pr =>
      (fromFingerprintsLoop fp m pr.2 rest).map (fun tail => (last, some pr.1) :: tail)

/-- Constructs a path from a model and a sequence of fingerprints
(`Path::from_fingerprints`).  `none` models the panics: empty sequence, no
matching initial state, or no matching next step. -/
def Path.from_fingerprints (fp : State → Fingerprint) (m : Model State Action) :
    List Fingerprint → Option (Path State Action)
  | [] => none
  | init_print :: rest =>
    match m.init_states.find? (fun s => decide (fp s = init_print)) with
    | none => none
    | some first => (fromFingerprintsLoop fp m first rest).map Path.mk

/-- Loop body of `Path::from_actions`: replay the actions one by one, taking
at each step the first `(action, successor)` pair of `next_steps` whose
action matches; `none` when no pair matches. -/
def fromActionsLoop [DecidableEq Action] (m : Model State Action) :
    State → List Action → Option (List (State × Option Action))
  | prev, [] => some [(prev, none)]
  | prev, a :: rest =>
    match (m.next_steps prev).find? (fun pr => decide (pr.1 = a)) with
    | none => none
    | some pr =>
      (fromActionsLoop m pr.2 rest).map (fun tail => (prev, some pr.1) :: tail)

/-- Constructs a path from a model, initial state, and a sequence of actions
(`Path::from_actions`); `none` when the state is not an initial state or
some action is not enabled during the replay. -/
def Path.from_actions [DecidableEq State] [DecidableEq Action] (m : Model State Action)
    (init_state : State) (acts : List Action) : Option (Path State Action) :=
  if init_state ∈ m.init_states then
    (fromActionsLoop m init_state acts).map Path.mk
  else
    none

/-- Loop body of `Path::final_state`: follow the first matching successor of
`next_states` for each remaining fingerprint. -/
def finalStateLoop (fp : State → Fingerprint) (m : Model State Action) :
    State → List Fingerprint → Option State
  | s, [] => some s
  | s, next :: rest =>
    match (m.next_states s).find? (fun t => decide (fp t = next)) with
    | none => none
    | some t => finalStateLoop fp m t rest

/-- Determines the final state associated with a fingerprint path
(`Path::final_state`), totally: `none` for the empty sequence or when the
replay fails. -/
def Path.final_state (fp : State → Fingerprint) (m : Model State Action) :
    List Fingerprint → Option State
  | [] => none
  | init_print :: rest =>
    match m.init_states.find? (fun s => decide (fp s = init_print)) with
    | none => none
    | some first => finalStateLoop fp m first rest

/-- Extracts the last state (`Path::last_state`); `none` models the panic on
an empty vector, which well-formed paths never trigger. -/
def Path.last_state (p : Path State Action) : Option State :=
  p.pairs.getLast?.map Prod.fst

/-- Extracts the states (`Path::into_states`). -/
def Path.into_states (p : Path State Action) : List State :=
  p.pairs.map Prod.fst

/-- Extracts the actions (`Path::into_actions`). -/
def Path.into_actions (p : Path State Action) : List Action :=
  p.pairs.filterMap Prod.snd

/-- The fingerprint sequence of the path's states; `Path::encode` renders
exactly this sequence as decimal integers joined by slashes. -/
def Path.encode_as_fingerprints (fp : State → Fingerprint) (p : Path State Action) :
    List Fingerprint :=
  p.pairs.map (fun sa => fp sa.1)

/-- Encodes the path as slash-delimited fingerprints (`Path::encode`). -/
def Path.encode (fp : State → Fingerprint) (p : Path State Action) : String :=
  String.intercalate "/" ((p.encode_as_fingerprints fp).map toString)

/-- The lines written by the `Display` implementation for `Path`: a header
naming the number of pairs minus one, then one line per present action,
rendered by the debug function `dbg`. -/
def Path.display_lines (dbg : Action → String) (p : Path State Action) : List String :=
  ("Path[" ++ toString (p.pairs.length - 1) ++ "]:") ::
    p.pairs.filterMap (fun sa => sa.2.map (fun a => "- " ++ dbg a))

/-- The discovery summary lines written by `Checker::report` for a single
discovery: the header line is prefixed with the quoted property name and its
classification, the remaining lines are the path's action lines. -/
def reportDiscovery (dbg : Action → String) (name cls : String)
    (p : Path State Action) : List String :=
  match p.display_lines dbg with
  | [] => []
  | h :: t => ("Discovered \"" ++ name ++ "\" " ++ cls ++ " " ++ h) :: t

/-- Shape predicate for path vectors: non-empty, every pair but the last
carries an action, and the last pair carries none. -/
def pairsShape : List (State × Option Action) → Bool
  | [] => false
  | (_, a) :: [] => a.isNone
  | (_, a) :: r :: rest => a.isSome && pairsShape (r :: rest)

/-- A path vector is a chain of the model when consecutive pairs are linked
by a `next_steps` transition and the shape invariant holds. -/
def chainFrom [DecidableEq State] [DecidableEq Action] (m : Model State Action) :
    List (State × Option Action) → Bool
  | [] => false
  | (_, a) :: [] => a.isNone
  | (s, oa) :: (t, ob) :: rest =>
    match oa with
    | none => false
    | some a => decide ((a, t) ∈ m.next_steps s) && chainFrom m ((t, ob) :: rest)

/-- A path is a genuine path of the model: its pair vector is a chain and
its first state is one of the model's initial states. -/
def Path.valid [DecidableEq State] [DecidableEq Action] (m : Model State Action)
    (p : Path State Action) : Bool :=
  chainFrom m p.pairs &&
    match p.pairs.head? with
    | some sa => decide (sa.1 ∈ m.init_states)
    | none => false

/-- Replayability of the tail of a fingerprint sequence from a state: at
each step some `(action, successor)` pair of the current state must have a
matching fingerprint, the current state advancing through the first match. -/
def canReplayLoop (fp : State → Fingerprint) (m : Model State Action) :
    State → List Fingerprint → Bool
  | _, [] => true
  | s, next :: rest =>
    match (m.next_steps s).find? (fun pr => decide (fp pr.2 = next)) with
    | none => false
    | some pr => canReplayLoop fp m pr.2 rest

/-- A fingerprint sequence replays against the model when it is non-empty,
some initial state matches its first element, and each further element is
matched by a successor of the current state. -/
def canReplay (fp : State → Fingerprint) (m : Model State Action) :
    List Fingerprint → Bool
  | [] => false
  | f :: rest =>
    match m.init_states.find? (fun s => decide (fp s = f)) with
    | none => false
    | some s => canReplayLoop fp m s rest

/-- Enabledness of an action sequence along the greedy replay from a state:
each action must be matched by some `next_steps` pair of the current state. -/
def actionsEnabled [DecidableEq Action] (m : Model State Action) :
    State → List Action → Bool
  | _, [] => true
  | s, a :: rest =>
    match (m.next_steps s).find? (fun pr => decide (pr.1 = a)) with
    | none => false
    | some pr => actionsEnabled m pr.2 rest

/-- Well-formedness of a path: non-empty pair vector whose last pair carries
no action while every earlier pair does. -/
def Path.wellFormed (p : Path State Action) : Bool :=
  pairsShape p.pairs

/-- Modelled from the spec: a snapshot of a spawned checker — its model, the
discovery store mapping property names to fingerprint-reconstructed paths,
and whether checking is done.  The engine methods backing these accessors
(BFS/DFS workers) live outside the provided source file; the façade methods
below are translated from it. -/
structure CheckerState (State Action : Type) where
  model : Model State Action
  discoveries : List (String × Path State Action)
  is_done : Bool

/-- Looks up a discovery by property name (`Checker::discovery`). -/
def CheckerState.discovery (c : CheckerState State Action) (name : String) :
    Option (Path State Action) :=
  (c.discoveries.find? (fun kv => decide (kv.1 = name))).map Prod.snd

/-- Indicates whether a discovery is an example or a counterexample
(`Checker::discovery_classification`); `none` models the unwrap panic when
no property carries the name. -/
def CheckerState.discovery_classification (c : CheckerState State Action)
    (name : String) : Option String :=
  (c.model.properties.find? (fun p => decide (p.name = name))).map (fun p =>
    match p.expectation with
    | Expectation.always => "counterexample"
    | Expectation.eventually => "counterexample"
    | Expectation.sometimes => "example")

/-- Panics if a particular discovery is not found
(`Checker::assert_any_discovery`); panics are modelled as errors. -/
def CheckerState.assert_any_discovery (c : CheckerState State Action)
    (name : String) : Except String (Path State Action) :=
  match c.discovery name with
  | some found => Except.ok found
  | none =>
    if c.is_done then
      Except.error ("Discovery for " ++ name ++ " not found.")
    else
      Except.error ("Discovery for " ++ name ++ " not found, but model checking is incomplete.")

/-- Panics if a particular discovery is found
(`Checker::assert_no_discovery`), and also when checking is incomplete. -/
def CheckerState.assert_no_discovery (c : CheckerState State Action)
    (name : String) : Except String Unit :=
  match c.discovery name with
  | some _found => Except.error ("Unexpected discovery for " ++ name ++ ".")
  | none =>
    if c.is_done then Except.ok ()
    else
      Except.error ("Discovery for " ++ name ++ " not found, but model checking is incomplete.")

/-- Loop of `Checker::assert_properties` over the property list, stopping at
the first panic. -/
def assertPropertiesLoop (c : CheckerState State Action) :
    List (Property State) → Except String Unit
  | [] => Except.ok ()
  | p :: rest =>
    match p.expectation with
    | Expectation.always =>
      match c.assert_no_discovery p.name with
      | Except.ok _ => assertPropertiesLoop c rest
      | Except.error e => Except.error e
    | Expectation.eventually =>
      match c.assert_no_discovery p.name with
      | Except.ok _ => assertPropertiesLoop c rest
      | Except.error e => Except.error e
    | Expectation.sometimes =>
      match c.assert_any_discovery p.name with
      | Except.ok _ => assertPropertiesLoop c rest
      | Except.error e => Except.error e

/-- Verifies examples exist for all sometimes properties and no
counterexamples exist for any always or eventually properties
(`Checker::assert_properties`). -/
def CheckerState.assert_properties (c : CheckerState State Action) :
    Except String Unit :=
  assertPropertiesLoop c c.model.properties

/-- Whether a replayed path itself witnesses the property, as evaluated by
the body of `Checker::assert_discovery`: condition false at the last state
for always, condition true at the last state for sometimes, and for
eventually no state satisfying the condition together with an action-less
last state.  The `none` branches model unwrap panics on an empty vector,
which constructed paths never trigger. -/
def Path.witnesses (m : Model State Action) (prop : Property State)
    (path : Path State Action) : Bool :=
  match prop.expectation with
  | Expectation.always =>
    match path.last_state with
    | some s => !prop.condition s
    | none => false
  | Expectation.eventually =>
    let states := path.into_states
    let is_liveness_satisfied := states.any (fun s => prop.condition s)
    let is_path_terminal :=
      match states.getLast? with
      | some s => (m.actions s).isEmpty
      | none => false
    !is_liveness_satisfied && is_path_terminal
  | Expectation.sometimes =>
    match path.last_state with
    | some s => prop.condition s
    | none => false

/-- Loop of `Checker::assert_discovery` over the initial states: replay the
action sequence from each, and accept the first replay that witnesses the
property; the property lookup panic ("should be in properties") is modelled
as an error. -/
def assertDiscoveryLoop [DecidableEq State] [DecidableEq Action]
    (c : CheckerState State Action) (name : String) (acts : List Action) :
    List State → Except String Unit
  | [] => Except.error ("Invalid discovery for " ++ name ++ ", but a valid one was found.")
  | init :: rest =>
    match Path.from_actions c.model init acts with
    | none => assertDiscoveryLoop c name acts rest
    | some path =>
      match Model.property c.model name with
      | none => Except.error "should be in properties"
      | some prop =>
        if Path.witnesses c.model prop path then Except.ok ()
        else assertDiscoveryLoop c name acts rest

/-- Panics unless the specified actions result in a discovery for the
specified property name (`Checker::assert_discovery`): first asserts some
discovery exists, then replays the actions from each initial state. -/
def CheckerState.assert_discovery [DecidableEq State] [DecidableEq Action]
    (c : CheckerState State Action) (name : String) (acts : List Action) :
    Except String Unit :=
  match c.assert_any_discovery name with
  | Except.error e => Except.error e
  | Except.ok _found => assertDiscoveryLoop c name acts c.model.init_states

/-! Concrete example models. -/

/-- The sometimes-property of the two-state example model: state 1 reached. -/
def exProp : Property Nat :=
  { name := "reach", expectation := Expectation.sometimes,
    condition := fun s => decide (s = 1) }

/-- A two-state model (0 steps to 1 by action 1) for concrete evaluation. -/
def exModel : Model Nat Nat :=
  { init_states := [0]
  , actions := fun s => if s = 0 then [1] else []
  , next_state := fun s a => if s = 0 ∧ a = 1 then some 1 else none
  , properties := [exProp] }

/-- The one-step path of the two-state model. -/
def exPath : Path Nat Nat := ⟨[(0, some 1), (1, none)]⟩

/-- Identity fingerprint assignment on natural-number states (injective). -/
def idFp : Nat → Fingerprint := fun n => n

/-- Constant fingerprint assignment: every state collides. -/
def constFp : Nat → Fingerprint := fun _ => 1

/-- A model with two terminal initial states, whose fingerprints collide
under the constant fingerprint assignment. -/
def collModel : Model Nat Unit :=
  { init_states := [0, 5]
  , actions := fun _ => []
  , next_state := fun _ _ => none
  , properties := [] }

/-- The single-state path of `collModel` starting at state 5. -/
def collPath : Path Nat Unit := ⟨[(5, none)]⟩

/-- Checker snapshot for the two-state model after checking completed, with
the "reach" discovery recorded. -/
def exChecker : CheckerState Nat Nat :=
  { model := exModel, discoveries := [("reach", exPath)], is_done := true }

/-- Checker snapshot whose model carries a single always-property, with no
discovery recorded and checking still incomplete. -/
def incompleteChecker : CheckerState Nat Nat :=
  { model :=
      { init_states := [0]
      , actions := fun _ => []
      , next_state := fun _ _ => none
      , properties := [ { name := "live", expectation := Expectation.always,
                          condition := fun _ => false } ] }
  , discoveries := []
  , is_done := false }

/-! Helper lemmas. -/

variable {St Ac : Type}

theorem next_states_eq_map_snd (m : Model St Ac) (s : St) :
    m.next_states s = (m.next_steps s).map Prod.snd := by
  unfold Model.next_states Model.next_steps
  rw [List.map_filterMap]
  congr 1
  funext a
  cases m.next_state s a <;> rfl

theorem find_next_states (fp : St → Fingerprint) (m : Model St Ac) (s : St)
    (f : Fingerprint) :
    (m.next_states s).find? (fun t => decide (fp t = f)) =
      ((m.next_steps s).find? (fun pr => decide (fp pr.2 = f))).map Prod.snd := by
  rw [next_states_eq_map_snd, List.find?_map]
  rfl

theorem mem_next_steps (m : Model St Ac) (s : St) (a : Ac) (t : St) :
    (a, t) ∈ m.next_steps s ↔ a ∈ m.actions s ∧ m.next_state s a = some t := by
  unfold Model.next_steps
  rw [List.mem_filterMap]
  constructor
  · rintro ⟨b, hb, hmap⟩
    rcases Option.map_eq_some'.mp hmap with ⟨u, hu, huv⟩
    have h1 : b = a := congrArg Prod.fst huv
    have h2 : u = t := congrArg Prod.snd huv
    subst h1; subst h2
    exact ⟨hb, hu⟩
  · rintro ⟨ha, ht⟩
    exact ⟨a, ha, by rw [ht]; rfl⟩

theorem find_step_of_enabled [DecidableEq Ac] (m : Model St Ac) (s : St)
    (a : Ac) (t : St) (ht : m.next_state s a = some t) :
    ∀ l : List Ac, a ∈ l →
      (l.filterMap (fun x => (m.next_state s x).map (fun u => (x, u)))).find?
        (fun pr => decide (pr.1 = a)) = some (a, t) := by
  intro l
  induction l with
  | nil => intro h; exact absurd h (List.not_mem_nil _)
  | cons b bs ih =>
    intro h
    rw [List.filterMap_cons]
    by_cases hba : b = a
    · subst hba
      rw [ht]
      exact List.find?_cons_of_pos _ (by simp)
    · have hmem : a ∈ bs := by
        rcases List.mem_cons.mp h with h1 | h1
        · exact absurd h1.symm hba
        · exact h1
      cases hnb : m.next_state s b with
      | none =>
        simp only [Option.map_none']
        exact ih hmem
      | some u =>
        simp only [Option.map_some']
        rw [List.find?_cons_of_neg _ (by simp [hba])]
        exact ih hmem

theorem find_step_of_mem [DecidableEq Ac] (m : Model St Ac) (s : St)
    (a : Ac) (t : St) (h : (a, t) ∈ m.next_steps s) :
    (m.next_steps s).find? (fun pr => decide (pr.1 = a)) = some (a, t) := by
  rcases (mem_next_steps m s a t).mp h with ⟨ha, ht⟩
  exact find_step_of_enabled m s a t ht (m.actions s) ha

theorem fromActionsLoop_isSome [DecidableEq Ac] (m : Model St Ac) :
    ∀ (acts : List Ac) (s : St),
      (fromActionsLoop m s acts).isSome = actionsEnabled m s acts
  | [], _ => rfl
  | a :: rest, s => by
    unfold fromActionsLoop actionsEnabled
    cases hf : (m.next_steps s).find? (fun pr => decide (pr.1 = a)) with
    | none => rfl
    | some pr =>
      simp only [Option.isSome_map']
      exact fromActionsLoop_isSome m rest pr.2

theorem fromActionsLoop_spec [DecidableEq St] [DecidableEq Ac] (m : Model St Ac) :
    ∀ (acts : List Ac) (s : St) (pairs : List (St × Option Ac)),
      fromActionsLoop m s acts = some pairs →
      pairs.filterMap Prod.snd = acts ∧
      pairs.head?.map Prod.fst = some s ∧
      chainFrom m pairs = true := by
  intro acts
  induction acts with
  | nil =>
    intro s pairs h
    unfold fromActionsLoop at h
    cases h
    exact ⟨rfl, rfl, rfl⟩
  | cons a rest ih =>
    intro s pairs h
    unfold fromActionsLoop at h
    cases hf : (m.next_steps s).find? (fun pr => decide (pr.1 = a)) with
    | none => rw [hf] at h; cases h
    | some pr =>
      rw [hf] at h
      rcases Option.map_eq_some'.mp h with ⟨tail, htail, hpairs⟩
      subst hpairs
      rcases ih pr.2 tail htail with ⟨hacts, hhead, hchain⟩
      have hfst : pr.1 = a := by
        have h2 := List.find?_some hf
        simpa using h2
      refine ⟨?_, rfl, ?_⟩
      · simp only [List.filterMap_cons, Option.isSome_some]
        rw [hacts, hfst]
      · cases tail with
        | nil => simp at hhead
        | cons hd2 tl2 =>
          have ht0 : hd2.1 = pr.2 := by
            simp only [List.head?_cons, Option.map_some'] at hhead
            exact Option.some.inj hhead
          have hmem : pr ∈ m.next_steps s := List.mem_of_find?_eq_some hf
          cases hd2 with
          | mk t0 ob =>
            simp only at ht0
            subst ht0
            show chainFrom m ((s, some pr.1) :: (pr.2, ob) :: tl2) = true
            unfold chainFrom
            simp only [Bool.and_eq_true, decide_eq_true_eq]
            exact ⟨hmem, hchain⟩

theorem chainFrom_shape [DecidableEq St] [DecidableEq Ac] (m : Model St Ac) :
    ∀ pairs : List (St × Option Ac), chainFrom m pairs = true → pairsShape pairs = true := by
  intro pairs
  induction pairs with
  | nil => intro h; simp [chainFrom] at h
  | cons hd tl ih =>
    cases tl with
    | nil =>
      intro h
      cases hd with
      | mk s oa => simpa [chainFrom, pairsShape] using h
    | cons hd2 tl2 =>
      intro h
      cases hd with
      | mk s oa =>
        cases hd2 with
        | mk t ob =>
          cases oa with
          | none => simp [chainFrom] at h
          | some a =>
            unfold chainFrom at h
            simp only [Bool.and_eq_true] at h
            unfold pairsShape
            simp only [Option.isSome_some, Bool.true_and]
            exact ih h.2

theorem pairsShape_filterMap_length :
    ∀ pairs : List (St × Option Ac), pairsShape pairs = true →
      (pairs.filterMap Prod.snd).length + 1 = pairs.length := by
  intro pairs
  induction pairs with
  | nil => intro h; simp [pairsShape] at h
  | cons hd tl ih =>
    cases tl with
    | nil =>
      intro h
      cases hd with
      | mk s oa =>
        cases oa with
        | none => rfl
        | some a => simp [pairsShape] at h
    | cons hd2 tl2 =>
      intro h
      cases hd with
      | mk s oa =>
        unfold pairsShape at h
        simp only [Bool.and_eq_true] at h
        rcases Option.isSome_iff_exists.mp h.1 with ⟨a, ha⟩
        subst ha
        have hlen := ih h.2
        simp only [List.filterMap_cons, List.length_cons] at hlen ⊢
        omega

theorem pairsShape_getLast :
    ∀ pairs : List (St × Option Ac), pairsShape pairs = true →
      ∃ s, pairs.getLast? = some (s, none) := by
  intro pairs
  induction pairs with
  | nil => intro h; simp [pairsShape] at h
  | cons hd tl ih =>
    cases tl with
    | nil =>
      intro h
      cases hd with
      | mk s oa =>
        cases oa with
        | none => exact ⟨s, rfl⟩
        | some a => simp [pairsShape] at h
    | cons hd2 tl2 =>
      intro h
      unfold pairsShape at h
      simp only [Bool.and_eq_true] at h
      rcases ih h.2 with ⟨s, hs⟩
      exact ⟨s, by rw [List.getLast?_cons_cons]; exact hs⟩

theorem pairsShape_ne_nil {pairs : List (St × Option Ac)}
    (h : pairsShape pairs = true) : pairs ≠ [] := by
  intro hnil
  subst hnil
  simp [pairsShape] at h

theorem ffLoop_isSome_eq (fp : St → Fingerprint) (m : Model St Ac) :
    ∀ (l : List Fingerprint) (s : St),
      (fromFingerprintsLoop fp m s l).isSome = canReplayLoop fp m s l
  | [], _ => rfl
  | f :: rest, s => by
    unfold fromFingerprintsLoop canReplayLoop
    cases hf : (m.next_steps s).find? (fun pr => decide (fp pr.2 = f)) with
    | none => rfl
    | some pr =>
      simp only [Option.isSome_map']
      exact ffLoop_isSome_eq fp m rest pr.2

theorem canReplayLoop_eq_final (fp : St → Fingerprint) (m : Model St Ac) :
    ∀ (l : List Fingerprint) (s : St),
      canReplayLoop fp m s l = (finalStateLoop fp m s l).isSome
  | [], _ => rfl
  | f :: rest, s => by
    unfold canReplayLoop finalStateLoop
    rw [find_next_states fp m s f]
    cases hf : (m.next_steps s).find? (fun pr => decide (fp pr.2 = f)) with
    | none => rfl
    | some pr =>
      simp only [Option.map_some']
      exact canReplayLoop_eq_final fp m rest pr.2

theorem ffLoop_final (fp : St → Fingerprint) (m : Model St Ac) :
    ∀ (l : List Fingerprint) (s : St) (pairs : List (St × Option Ac)),
      fromFingerprintsLoop fp m s l = some pairs →
      ∃ t, finalStateLoop fp m s l = some t ∧ pairs.getLast? = some (t, none) := by
  intro l
  induction l with
  | nil =>
    intro s pairs h
    unfold fromFingerprintsLoop at h
    cases h
    exact ⟨s, rfl, rfl⟩
  | cons f rest ih =>
    intro s pairs h
    unfold fromFingerprintsLoop at h
    cases hf : (m.next_steps s).find? (fun pr => decide (fp pr.2 = f)) with
    | none => rw [hf] at h; cases h
    | some pr =>
      rw [hf] at h
      rcases Option.map_eq_some'.mp h with ⟨tail, htail, hpairs⟩
      subst hpairs
      rcases ih pr.2 tail htail with ⟨t, hfinal, hlast⟩
      refine ⟨t, ?_, ?_⟩
      · unfold finalStateLoop
        rw [find_next_states fp m s f, hf]
        simpa using hfinal
      · cases tail with
        | nil => simp at hlast
        | cons hd2 tl2 => rw [List.getLast?_cons_cons]; exact hlast

theorem ffLoop_shape (fp : St → Fingerprint) (m : Model St Ac) :
    ∀ (l : List Fingerprint) (s : St) (pairs : List (St × Option Ac)),
      fromFingerprintsLoop fp m s l = some pairs → pairsShape pairs = true := by
  intro l
  induction l with
  | nil =>
    intro s pairs h
    unfold fromFingerprintsLoop at h
    cases h
    rfl
  | cons f rest ih =>
    intro s pairs h
    unfold fromFingerprintsLoop at h
    cases hf : (m.next_steps s).find? (fun pr => decide (fp pr.2 = f)) with
    | none => rw [hf] at h; cases h
    | some pr =>
      rw [hf] at h
      rcases Option.map_eq_some'.mp h with ⟨tail, htail, hpairs⟩
      subst hpairs
      have hsh := ih pr.2 tail htail
      cases tail with
      | nil => simp [pairsShape] at hsh
      | cons hd2 tl2 =>
        unfold pairsShape
        simp only [Option.isSome_some, Bool.true_and]
        exact hsh

theorem from_fingerprints_cons (fp : St → Fingerprint) (m : Model St Ac)
    (f : Fingerprint) (rest : List Fingerprint) :
    Path.from_fingerprints fp m (f :: rest) =
      match m.init_states.find? (fun s => decide (fp s = f)) with
      | none => none
      | some first => (fromFingerprintsLoop fp m first rest).map Path.mk := rfl

theorem final_state_cons (fp : St → Fingerprint) (m : Model St Ac)
    (f : Fingerprint) (rest : List Fingerprint) :
    Path.final_state fp m (f :: rest) =
      match m.init_states.find? (fun s => decide (fp s = f)) with
      | none => none
      | some first => finalStateLoop fp m first rest := rfl

theorem canReplay_cons (fp : St → Fingerprint) (m : Model St Ac)
    (f : Fingerprint) (rest : List Fingerprint) :
    canReplay fp m (f :: rest) =
      match m.init_states.find? (fun s => decide (fp s = f)) with
      | none => false
      | some s => canReplayLoop fp m s rest := rfl

theorem from_fingerprints_isSome_eq (fp : St → Fingerprint) (m : Model St Ac)
    (l : List Fingerprint) :
    (Path.from_fingerprints fp m l).isSome = canReplay fp m l := by
  cases l with
  | nil => rfl
  | cons f rest =>
    rw [from_fingerprints_cons, canReplay_cons]
    cases hf : m.init_states.find? (fun s => decide (fp s = f)) with
    | none => rfl
    | some s =>
      simp only [Option.isSome_map']
      exact ffLoop_isSome_eq fp m rest s

theorem final_state_isSome_eq (fp : St → Fingerprint) (m : Model St Ac)
    (l : List Fingerprint) :
    (Path.final_state fp m l).isSome = canReplay fp m l := by
  cases l with
  | nil => rfl
  | cons f rest =>
    rw [final_state_cons, canReplay_cons]
    cases hf : m.init_states.find? (fun s => decide (fp s = f)) with
    | none => rfl
    | some s => exact (canReplayLoop_eq_final fp m rest s).symm

theorem final_state_eq_bind (fp : St → Fingerprint) (m : Model St Ac)
    (l : List Fingerprint) :
    Path.final_state fp m l = (Path.from_fingerprints fp m l).bind Path.last_state := by
  cases l with
  | nil => rfl
  | cons f rest =>
    rw [final_state_cons, from_fingerprints_cons]
    cases hf : m.init_states.find? (fun s => decide (fp s = f)) with
    | none => rfl
    | some s =>
      show finalStateLoop fp m s rest =
        ((fromFingerprintsLoop fp m s rest).map Path.mk).bind Path.last_state
      cases hl : fromFingerprintsLoop fp m s rest with
      | none =>
        have h1 := ffLoop_isSome_eq fp m rest s
        have h2 := canReplayLoop_eq_final fp m rest s
        rw [hl] at h1
        cases hfin : finalStateLoop fp m s rest with
        | none => rfl
        | some t =>
          rw [hfin] at h2
          rw [← h1] at h2
          simp at h2
      | some pairs =>
        rcases ffLoop_final fp m rest s pairs hl with ⟨t, hfin, hlast⟩
        rw [hfin]
        simp only [Option.map_some', Option.some_bind]
        unfold Path.last_state
        simp [hlast]

theorem finalStateLoop_chain [DecidableEq St] [DecidableEq Ac]
    (fp : St → Fingerprint) (m : Model St Ac) (hinj : Function.Injective fp) :
    ∀ pairs : List (St × Option Ac), chainFrom m pairs = true →
      ∀ s, pairs.head?.map Prod.fst = some s →
      finalStateLoop fp m s (pairs.tail.map (fun sa => fp sa.1)) =
        pairs.getLast?.map Prod.fst := by
  intro pairs
  induction pairs with
  | nil => intro h; simp [chainFrom] at h
  | cons hd tl ih =>
    intro h s hs
    have hsfst : hd.1 = s := by
      simp only [List.head?_cons, Option.map_some'] at hs
      exact Option.some.inj hs
    cases tl with
    | nil =>
      simp only [List.tail_cons, List.map_nil]
      unfold finalStateLoop
      simp [hsfst]
    | cons hd2 tl2 =>
      cases hd with
      | mk s0 oa =>
        simp only at hsfst
        subst hsfst
        cases hd2 with
        | mk t0 ob =>
          cases oa with
          | none => simp [chainFrom] at h
          | some a =>
            unfold chainFrom at h
            simp only [Bool.and_eq_true, decide_eq_true_eq] at h
            rcases h with ⟨hstep, hchain⟩
            have ht0mem : t0 ∈ m.next_states s0 := by
              rw [next_states_eq_map_snd]
              exact List.mem_map_of_mem Prod.snd hstep
            have hfindSome :
                ((m.next_states s0).find? (fun t => decide (fp t = fp t0))).isSome := by
              rw [List.find?_isSome]
              exact ⟨t0, ht0mem, by simp⟩
            rcases Option.isSome_iff_exists.mp hfindSome with ⟨u, hu⟩
            have hu_eq : u = t0 := by
              have := List.find?_some hu
              simp only [decide_eq_true_eq] at this
              exact hinj this
            subst hu_eq
            simp only [List.tail_cons, List.map_cons]
            unfold finalStateLoop
            rw [hu]
            have hrec := ih hchain u (by simp)
            simp only [List.tail_cons] at hrec
            show finalStateLoop fp m u (tl2.map (fun sa => fp sa.1)) =
              Option.map Prod.fst ((s0, some a) :: (u, ob) :: tl2).getLast?
            rw [hrec, List.getLast?_cons_cons]

theorem from_actions_spec [DecidableEq St] [DecidableEq Ac] (m : Model St Ac)
    (init : St) (acts : List Ac) (p : Path St Ac)
    (h : Path.from_actions m init acts = some p) :
    p.into_actions = acts ∧ p.pairs.head?.map Prod.fst = some init ∧
      Path.valid m p = true := by
  unfold Path.from_actions at h
  by_cases hmem : init ∈ m.init_states
  · rw [if_pos hmem] at h
    rcases Option.map_eq_some'.mp h with ⟨pairs, hloop, hp⟩
    subst hp
    rcases fromActionsLoop_spec m acts init pairs hloop with ⟨hacts, hhead, hchain⟩
    refine ⟨hacts, hhead, ?_⟩
    unfold Path.valid
    simp only [hchain, Bool.true_and]
    cases hh : pairs.head? with
    | none => rw [hh] at hhead; cases hhead
    | some sa =>
      rw [hh] at hhead
      simp only [Option.map_some'] at hhead
      have hsa : sa.1 = init := Option.some.inj hhead
      show decide (sa.1 ∈ m.init_states) = true
      rw [hsa]
      exact decide_eq_true hmem
  · rw [if_neg hmem] at h
    cases h

theorem from_actions_none_iff [DecidableEq St] [DecidableEq Ac] (m : Model St Ac)
    (init : St) (acts : List Ac) :
    Path.from_actions m init acts = none ↔
      init ∉ m.init_states ∨ actionsEnabled m init acts = false := by
  unfold Path.from_actions
  by_cases hmem : init ∈ m.init_states
  · rw [if_pos hmem]
    have hiso := fromActionsLoop_isSome m acts init
    constructor
    · intro h
      right
      rw [← hiso]
      cases hl : fromActionsLoop m init acts with
      | none => rfl
      | some pairs => rw [hl] at h; cases h
    · rintro (h | h)
      · exact absurd hmem h
      · rw [← hiso] at h
        cases hl : fromActionsLoop m init acts with
        | none => rfl
        | some pairs => rw [hl] at h; cases h
  · rw [if_neg hmem]
    simp [hmem]

theorem fromActionsLoop_of_chain [DecidableEq St] [DecidableEq Ac] (m : Model St Ac) :
    ∀ pairs : List (St × Option Ac), chainFrom m pairs = true →
      ∀ s, pairs.head?.map Prod.fst = some s →
      ∃ out, fromActionsLoop m s (pairs.filterMap Prod.snd) = some out := by
  intro pairs
  induction pairs with
  | nil => intro h; simp [chainFrom] at h
  | cons hd tl ih =>
    intro h s hs
    have hsfst : hd.1 = s := by
      simp only [List.head?_cons, Option.map_some'] at hs
      exact Option.some.inj hs
    cases tl with
    | nil =>
      cases hd with
      | mk s0 oa =>
        cases oa with
        | none => exact ⟨[(s, none)], rfl⟩
        | some a => simp [chainFrom] at h
    | cons hd2 tl2 =>
      cases hd with
      | mk s0 oa =>
        simp only at hsfst
        subst hsfst
        cases hd2 with
        | mk t0 ob =>
          cases oa with
          | none => simp [chainFrom] at h
          | some a =>
            unfold chainFrom at h
            simp only [Bool.and_eq_true, decide_eq_true_eq] at h
            rcases h with ⟨hstep, hchain⟩
            rcases ih hchain t0 (by simp) with ⟨out, hout⟩
            refine ⟨(s0, some a) :: out, ?_⟩
            show fromActionsLoop m s0
              (((s0, some a) :: (t0, ob) :: tl2).filterMap Prod.snd) = some ((s0, some a) :: out)
            rw [List.filterMap_cons]
            show fromActionsLoop m s0 (a :: ((t0, ob) :: tl2).filterMap Prod.snd) =
              some ((s0, some a) :: out)
            unfold fromActionsLoop
            rw [find_step_of_mem m s0 a t0 hstep]
            show (fromActionsLoop m t0 (((t0, ob) :: tl2).filterMap Prod.snd)).map
              (fun tail => (s0, some a) :: tail) = some ((s0, some a) :: out)
            rw [hout]
            rfl

theorem from_fingerprints_of_valid [DecidableEq St] [DecidableEq Ac]
    (fp : St → Fingerprint) (m : Model St Ac) (hinj : Function.Injective fp)
    (p : Path St Ac) (hvalid : Path.valid m p = true) :
    ∃ q, Path.from_fingerprints fp m (p.encode_as_fingerprints fp) = some q ∧
      q.last_state = p.last_state := by
  unfold Path.valid at hvalid
  simp only [Bool.and_eq_true] at hvalid
  rcases hvalid with ⟨hchain, hheadmem⟩
  cases hp : p.pairs with
  | nil => rw [hp] at hchain; simp [chainFrom] at hchain
  | cons hd tl =>
    rw [hp] at hchain hheadmem
    simp only [List.head?_cons] at hheadmem
    have hmem : hd.1 ∈ m.init_states := of_decide_eq_true hheadmem
    have henc : p.encode_as_fingerprints fp = fp hd.1 :: tl.map (fun sa => fp sa.1) := by
      unfold Path.encode_as_fingerprints
      rw [hp]
      rfl
    rw [henc, from_fingerprints_cons]
    have hfindSome : (m.init_states.find? (fun s => decide (fp s = fp hd.1))).isSome := by
      rw [List.find?_isSome]
      exact ⟨hd.1, hmem, by simp⟩
    rcases Option.isSome_iff_exists.mp hfindSome with ⟨u, hu⟩
    have hueq : u = hd.1 := by
      have h2 := List.find?_some hu
      simp only [decide_eq_true_eq] at h2
      exact hinj h2
    subst hueq
    rw [hu]
    show ∃ q, (fromFingerprintsLoop fp m hd.1 (tl.map (fun sa => fp sa.1))).map Path.mk = some q ∧
      q.last_state = p.last_state
    have hfin : finalStateLoop fp m hd.1 (tl.map (fun sa => fp sa.1)) =
        (hd :: tl).getLast?.map Prod.fst := by
      have h3 := finalStateLoop_chain fp m hinj (hd :: tl) hchain hd.1 (by simp)
      simpa using h3
    have hloopSome :
        (fromFingerprintsLoop fp m hd.1 (tl.map (fun sa => fp sa.1))).isSome = true := by
      rw [ffLoop_isSome_eq, canReplayLoop_eq_final, hfin]
      simp [Option.isSome_map', List.getLast?_isSome]
    rcases Option.isSome_iff_exists.mp hloopSome with ⟨pairs2, hl2⟩
    rcases ffLoop_final fp m (tl.map (fun sa => fp sa.1)) hd.1 pairs2 hl2 with ⟨t, hfin2, hlast2⟩
    refine ⟨Path.mk pairs2, by rw [hl2]; rfl, ?_⟩
    unfold Path.last_state
    show pairs2.getLast?.map Prod.fst = p.pairs.getLast?.map Prod.fst
    rw [hlast2, hp, ← hfin, hfin2]
    rfl

theorem from_actions_of_valid [DecidableEq St] [DecidableEq Ac] (m : Model St Ac)
    (p : Path St Ac) (init : St) (hvalid : Path.valid m p = true)
    (hhead : p.pairs.head?.map Prod.fst = some init) :
    ∃ q, Path.from_actions m init p.into_actions = some q ∧
      q.into_actions = p.into_actions := by
  unfold Path.valid at hvalid
  simp only [Bool.and_eq_true] at hvalid
  rcases hvalid with ⟨hchain, hheadmem⟩
  have hmem : init ∈ m.init_states := by
    cases hh : p.pairs.head? with
    | none => rw [hh] at hhead; cases hhead
    | some sa =>
      rw [hh] at hheadmem hhead
      simp only [Option.map_some'] at hhead
      have hsa : sa.1 = init := Option.some.inj hhead
      rw [← hsa]
      exact of_decide_eq_true hheadmem
  rcases fromActionsLoop_of_chain m p.pairs hchain init hhead with ⟨out, hout⟩
  refine ⟨Path.mk out, ?_, ?_⟩
  · unfold Path.from_actions
    rw [if_pos hmem]
    unfold Path.into_actions
    rw [hout]
    rfl
  · rcases fromActionsLoop_spec m (p.pairs.filterMap Prod.snd) init out hout with ⟨hacts, _, _⟩
    unfold Path.into_actions
    exact hacts

theorem assert_no_discovery_of_some (c : CheckerState St Ac) (name : String)
    (d : Path St Ac) (hd : c.discovery name = some d) :
    c.assert_no_discovery name =
      Except.error ("Unexpected discovery for " ++ name ++ ".") := by
  unfold CheckerState.assert_no_discovery
  rw [hd]

theorem assert_no_discovery_of_none (c : CheckerState St Ac) (name : String)
    (hdone : c.is_done = true) (hd : c.discovery name = none) :
    c.assert_no_discovery name = Except.ok () := by
  unfold CheckerState.assert_no_discovery
  rw [hd]
  show (if c.is_done then Except.ok () else _) = Except.ok ()
  rw [hdone]
  rfl

theorem assert_any_discovery_of_some (c : CheckerState St Ac) (name : String)
    (d : Path St Ac) (hd : c.discovery name = some d) :
    c.assert_any_discovery name = Except.ok d := by
  unfold CheckerState.assert_any_discovery
  rw [hd]

theorem assert_any_discovery_err (c : CheckerState St Ac) (name : String)
    (hd : c.discovery name = none) :
    ∃ e, c.assert_any_discovery name = Except.error e := by
  unfold CheckerState.assert_any_discovery
  rw [hd]
  by_cases hdn : c.is_done = true
  · refine ⟨"Discovery for " ++ name ++ " not found.", ?_⟩
    rw [if_pos hdn]
  · refine ⟨"Discovery for " ++ name ++ " not found, but model checking is incomplete.", ?_⟩
    rw [if_neg hdn]

theorem assertPropertiesLoop_cons (c : CheckerState St Ac) (p : Property St)
    (rest : List (Property St)) :
    assertPropertiesLoop c (p :: rest) =
      match p.expectation with
      | Expectation.always =>
        match c.assert_no_discovery p.name with
        | Except.ok _ => assertPropertiesLoop c rest
        | Except.error e => Except.error e
      | Expectation.eventually =>
        match c.assert_no_discovery p.name with
        | Except.ok _ => assertPropertiesLoop c rest
        | Except.error e => Except.error e
      | Expectation.sometimes =>
        match c.assert_any_discovery p.name with
        | Except.ok _ => assertPropertiesLoop c rest
        | Except.error e => Except.error e := rfl

theorem assertPropertiesLoop_ok_iff (c : CheckerState St Ac)
    (hdone : c.is_done = true) :
    ∀ props : List (Property St),
      (assertPropertiesLoop c props = Except.ok () ↔
        ∀ p ∈ props,
          (p.expectation = Expectation.sometimes → (c.discovery p.name).isSome = true) ∧
          (p.expectation ≠ Expectation.sometimes → c.discovery p.name = none)) := by
  intro props
  induction props with
  | nil => simp [assertPropertiesLoop]
  | cons p rest ih =>
    cases hexp : p.expectation with
    | always =>
      cases hd : c.discovery p.name with
      | some d =>
        have hloop : assertPropertiesLoop c (p :: rest) =
            Except.error ("Unexpected discovery for " ++ p.name ++ ".") := by
          rw [assertPropertiesLoop_cons, hexp, assert_no_discovery_of_some c p.name d hd]
        rw [hloop]
        constructor
        · intro hcontra; cases hcontra
        · intro hall
          exfalso
          have h2 := (hall p (List.mem_cons_self p rest)).2 (by rw [hexp]; intro hx; cases hx)
          rw [hd] at h2
          cases h2
      | none =>
        have hloop : assertPropertiesLoop c (p :: rest) = assertPropertiesLoop c rest := by
          rw [assertPropertiesLoop_cons, hexp, assert_no_discovery_of_none c p.name hdone hd]
        rw [hloop, ih]
        constructor
        · intro hall q hq
          rcases List.mem_cons.mp hq with hq1 | hq2
          · subst hq1
            refine ⟨?_, fun _ => hd⟩
            intro hs
            rw [hexp] at hs
            cases hs
          · exact hall q hq2
        · intro hall q hq
          exact hall q (List.mem_cons_of_mem p hq)
    | eventually =>
      cases hd : c.discovery p.name with
      | some d =>
        have hloop : assertPropertiesLoop c (p :: rest) =
            Except.error ("Unexpected discovery for " ++ p.name ++ ".") := by
          rw [assertPropertiesLoop_cons, hexp, assert_no_discovery_of_some c p.name d hd]
        rw [hloop]
        constructor
        · intro hcontra; cases hcontra
        · intro hall
          exfalso
          have h2 := (hall p (List.mem_cons_self p rest)).2 (by rw [hexp]; intro hx; cases hx)
          rw [hd] at h2
          cases h2
      | none =>
        have hloop : assertPropertiesLoop c (p :: rest) = assertPropertiesLoop c rest := by
          rw [assertPropertiesLoop_cons, hexp, assert_no_discovery_of_none c p.name hdone hd]
        rw [hloop, ih]
        constructor
        · intro hall q hq
          rcases List.mem_cons.mp hq with hq1 | hq2
          · subst hq1
            refine ⟨?_, fun _ => hd⟩
            intro hs
            rw [hexp] at hs
            cases hs
          · exact hall q hq2
        · intro hall q hq
          exact hall q (List.mem_cons_of_mem p hq)
    | sometimes =>
      cases hd : c.discovery p.name with
      | some d =>
        have hloop : assertPropertiesLoop c (p :: rest) = assertPropertiesLoop c rest := by
          rw [assertPropertiesLoop_cons, hexp, assert_any_discovery_of_some c p.name d hd]
        rw [hloop, ih]
        constructor
        · intro hall q hq
          rcases List.mem_cons.mp hq with hq1 | hq2
          · subst hq1
            refine ⟨fun _ => ?_, ?_⟩
            · rw [hd]; rfl
            · intro hns
              exact absurd hexp hns
          · exact hall q hq2
        · intro hall q hq
          exact hall q (List.mem_cons_of_mem p hq)
      | none =>
        rcases assert_any_discovery_err c p.name hd with ⟨e, herr⟩
        have hloop : assertPropertiesLoop c (p :: rest) = Except.error e := by
          rw [assertPropertiesLoop_cons, hexp, herr]
        rw [hloop]
        constructor
        · intro hcontra; cases hcontra
        · intro hall
          exfalso
          have h2 := (hall p (List.mem_cons_self p rest)).1 hexp
          rw [hd] at h2
          cases h2

theorem assertDiscoveryLoop_cons [DecidableEq St] [DecidableEq Ac]
    (c : CheckerState St Ac) (name : String) (acts : List Ac)
    (init : St) (rest : List St) :
    assertDiscoveryLoop c name acts (init :: rest) =
      match Path.from_actions c.model init acts with
      | none => assertDiscoveryLoop c name acts rest
      | some path =>
        match Model.property c.model name with
        | none => Except.error "should be in properties"
        | some prop =>
          if Path.witnesses c.model prop path then Except.ok ()
          else assertDiscoveryLoop c name acts rest := rfl

theorem assertDiscoveryLoop_ok_iff [DecidableEq St] [DecidableEq Ac]
    (c : CheckerState St Ac) (name : String) (acts : List Ac) (prop : Property St)
    (hprop : Model.property c.model name = some prop) :
    ∀ inits : List St,
      (assertDiscoveryLoop c name acts inits = Except.ok () ↔
        ∃ init ∈ inits, ∃ path, Path.from_actions c.model init acts = some path ∧
          Path.witnesses c.model prop path = true) := by
  intro inits
  induction inits with
  | nil =>
    constructor
    · intro hcontra; cases hcontra
    · rintro ⟨i, hi, _⟩
      exact absurd hi (List.not_mem_nil i)
  | cons init rest ih =>
    rw [assertDiscoveryLoop_cons]
    cases hfa : Path.from_actions c.model init acts with
    | none =>
      rw [ih]
      constructor
      · rintro ⟨i, hi, path, hpath, hw⟩
        exact ⟨i, List.mem_cons_of_mem init hi, path, hpath, hw⟩
      · rintro ⟨i, hi, path, hpath, hw⟩
        rcases List.mem_cons.mp hi with hq1 | hq2
        · subst hq1
          rw [hfa] at hpath
          cases hpath
        · exact ⟨i, hq2, path, hpath, hw⟩
    | some path =>
      rw [hprop]
      show (if Path.witnesses c.model prop path = true then Except.ok ()
          else assertDiscoveryLoop c name acts rest) = Except.ok () ↔ _
      by_cases hw : Path.witnesses c.model prop path = true
      · rw [if_pos hw]
        constructor
        · intro _
          exact ⟨init, List.mem_cons_self init rest, path, hfa, hw⟩
        · intro _
          rfl
      · rw [if_neg hw]
        rw [ih]
        constructor
        · rintro ⟨i, hi, path2, hpath2, hw2⟩
          exact ⟨i, List.mem_cons_of_mem init hi, path2, hpath2, hw2⟩
        · rintro ⟨i, hi, path2, hpath2, hw2⟩
          rcases List.mem_cons.mp hi with hq1 | hq2
          · subst hq1
            rw [hfa] at hpath2
            have hp2 : path = path2 := Option.some.inj hpath2
            subst hp2
            exact absurd hw2 hw
          · exact ⟨i, hq2, path2, hpath2, hw2⟩

theorem filterMap_map_snd_length (l : List (St × Option Ac)) (g : Ac → String) :
    (l.filterMap (fun sa => sa.2.map g)).length = (l.filterMap Prod.snd).length := by
  have h : l.filterMap (fun sa => (Prod.snd sa).map g) = (l.filterMap Prod.snd).map g :=
    (List.map_filterMap Prod.snd g l).symm
  rw [h, List.length_map]

theorem witnesses_iff (m : Model St Ac) (prop : Property St) (path : Path St Ac)
    (hshape : pairsShape path.pairs = true) :
    Path.witnesses m prop path = true ↔
      ((prop.expectation = Expectation.sometimes ∧
          ∃ s, path.last_state = some s ∧ prop.condition s = true) ∨
       (prop.expectation = Expectation.always ∧
          ∃ s, path.last_state = some s ∧ prop.condition s = false) ∨
       (prop.expectation = Expectation.eventually ∧
          (∀ s ∈ path.into_states, prop.condition s = false) ∧
          ∃ s, path.into_states.getLast? = some s ∧ m.actions s = [])) := by
  rcases pairsShape_getLast path.pairs hshape with ⟨z, hz⟩
  have hlast : path.last_state = some z := by
    unfold Path.last_state
    rw [hz]
    rfl
  have hstates_last : path.into_states.getLast? = some z := by
    unfold Path.into_states
    rw [List.getLast?_map, hz]
    rfl
  unfold Path.witnesses
  cases hexp : prop.expectation with
  | sometimes =>
    rw [hlast]
    constructor
    · intro h
      exact Or.inl ⟨rfl, z, rfl, h⟩
    · rintro (⟨_, s, hs, hcond⟩ | ⟨hbad, _⟩ | ⟨hbad, _⟩)
      · have hsz : z = s := Option.some.inj hs
        subst hsz
        exact hcond
      · cases hbad
      · cases hbad
  | always =>
    rw [hlast]
    constructor
    · intro h
      refine Or.inr (Or.inl ⟨rfl, z, rfl, ?_⟩)
      exact (Bool.not_eq_true' (prop.condition z)) ▸ h
    · rintro (⟨hbad, _⟩ | ⟨_, s, hs, hcond⟩ | ⟨hbad, _⟩)
      · cases hbad
      · have hsz : z = s := Option.some.inj hs
        subst hsz
        show (!prop.condition z) = true
        rw [Bool.not_eq_true']
        exact hcond
      · cases hbad
  | eventually =>
    show (!(path.into_states.any fun s => prop.condition s) &&
        (match path.into_states.getLast? with
         | some s => (m.actions s).isEmpty
         | none => false)) = true ↔ _
    rw [hstates_last]
    show (!(path.into_states.any fun s => prop.condition s) &&
        (m.actions z).isEmpty) = true ↔ _
    rw [Bool.and_eq_true, Bool.not_eq_true']
    constructor
    · rintro ⟨hany, hempty⟩
      refine Or.inr (Or.inr ⟨rfl, ?_, z, rfl, ?_⟩)
      · intro s hsmem
        have hall := List.any_eq_false.mp hany
        have hns := hall s hsmem
        exact Bool.eq_false_iff.mpr hns
      · exact List.isEmpty_iff.mp hempty
    · rintro (⟨hbad, _⟩ | ⟨hbad, _⟩ | ⟨_, hall, s, hs, hacts⟩)
      · cases hbad
      · cases hbad
      · have hsz : z = s := Option.some.inj hs
        subst hsz
        constructor
        · rw [List.any_eq_false]
          intro x hx
          rw [hall x hx]
          intro hcontra
          cases hcontra
        · rw [List.isEmpty_iff]
          exact hacts

/-! Claim theorems. -/

/-- C1: `Path::from_fingerprints` panics (returns `none` in this embedding)
if and only if the fingerprint sequence is empty, no initial state matches
the first element, or at some step no `(action, successor)` pair of the
current state matches the next element — that is, exactly when the sequence
does not replay against the model; on every replayable sequence it returns
a path without panicking. -/
theorem C1_from_fingerprints_panic_iff (fp : St → Fingerprint) (m : Model St Ac)
    (fps : List Fingerprint) :
    (Path.from_fingerprints fp m fps).isSome = canReplay fp m fps :=
  from_fingerprints_isSome_eq fp m fps

/-- C2: `Path::from_actions` is total (no panic path in this embedding): it
returns `none` exactly when the candidate state is not among the initial
states or some action fails to be enabled along the greedy replay, and any
returned path replays the given actions one by one — it starts at the given
initial state, is a valid chain of the model, and its actions are exactly
the input sequence. -/
theorem C2_from_actions_total [DecidableEq St] [DecidableEq Ac] (m : Model St Ac)
    (init : St) (acts : List Ac) :
    (Path.from_actions m init acts = none ↔
      init ∉ m.init_states ∨ actionsEnabled m init acts = false) ∧
    (∀ p, Path.from_actions m init acts = some p →
      p.into_actions = acts ∧ p.pairs.head?.map Prod.fst = some init ∧
        Path.valid m p = true) :=
  ⟨from_actions_none_iff m init acts, fun p h => from_actions_spec m init acts p h⟩

/-- C2 witness: on the two-state model, replaying action 1 from state 0
succeeds and the resulting path replays that one action. -/
theorem C2_witness :
    exPath.into_actions = [1] ∧ exPath.pairs.head?.map Prod.fst = some 0 ∧
      Path.valid exModel exPath = true :=
  (C2_from_actions_total exModel 0 [1]).2 exPath (by decide)

/-- C3 counterexample: with a colliding (constant) fingerprint assignment,
the valid single-state path starting at initial state 5 encodes to a
fingerprint sequence that reconstructs to the other initial state 0, so the
round trip does not preserve the last state. -/
theorem C3_counterexample :
    Path.valid collModel collPath = true ∧
    Path.from_actions collModel 5 ([] : List Unit) = some collPath ∧
    Path.from_fingerprints constFp collModel
      (collPath.encode_as_fingerprints constFp) = some (Path.mk [(0, none)]) ∧
    (Path.mk [(0, (none : Option Unit))]).last_state ≠ collPath.last_state := by
  refine ⟨by decide, by decide, by decide, ?_⟩
  decide

/-- C3 (amended): path reconstruction is round-trip consistent provided the
fingerprint assignment is injective (no collisions): for every valid path p
of the model, decoding p's fingerprint encoding with
`Path::from_fingerprints` yields a path whose last state equals p's last
state. -/
theorem C3_round_trip [DecidableEq St] [DecidableEq Ac] (fp : St → Fingerprint)
    (m : Model St Ac) (p : Path St Ac) (hinj : Function.Injective fp)
    (hvalid : Path.valid m p = true) :
    ∃ q, Path.from_fingerprints fp m (p.encode_as_fingerprints fp) = some q ∧
      q.last_state = p.last_state :=
  from_fingerprints_of_valid fp m hinj p hvalid

/-- C3 witness: the round trip at the one-step path of the two-state model
under the injective identity fingerprint assignment. -/
theorem C3_witness :
    ∃ q, Path.from_fingerprints idFp exModel (exPath.encode_as_fingerprints idFp) = some q ∧
      q.last_state = exPath.last_state :=
  C3_round_trip idFp exModel exPath (fun _ _ h => h) (by decide)

/-- C4: for every valid path p starting from an initial state `init`,
replaying p's action sequence with `Path::from_actions` succeeds and
reproduces the same action sequence. -/
theorem C4_replay_into_actions [DecidableEq St] [DecidableEq Ac] (m : Model St Ac)
    (p : Path St Ac) (init : St) (hvalid : Path.valid m p = true)
    (hhead : p.pairs.head?.map Prod.fst = some init) :
    ∃ q, Path.from_actions m init p.into_actions = some q ∧
      q.into_actions = p.into_actions :=
  from_actions_of_valid m p init hvalid hhead

/-- C4 witness: replaying the one-step path of the two-state model from its
initial state reproduces its action sequence. -/
theorem C4_witness :
    ∃ q, Path.from_actions exModel 0 exPath.into_actions = some q ∧
      q.into_actions = exPath.into_actions :=
  C4_replay_into_actions exModel exPath 0 (by decide) (by decide)

/-- C5: `discovery_classification` returns "example" for a property whose
expectation is Sometimes and "counterexample" for Always or Eventually. -/
theorem C5_discovery_classification (c : CheckerState St Ac) (name : String)
    (prop : Property St)
    (hfind : c.model.properties.find? (fun q => decide (q.name = name)) = some prop) :
    (prop.expectation = Expectation.sometimes →
      c.discovery_classification name = some "example") ∧
    ((prop.expectation = Expectation.always ∨ prop.expectation = Expectation.eventually) →
      c.discovery_classification name = some "counterexample") := by
  unfold CheckerState.discovery_classification
  rw [hfind]
  constructor
  · intro hs
    show some (match prop.expectation with
      | Expectation.always => "counterexample"
      | Expectation.eventually => "counterexample"
      | Expectation.sometimes => "example") = some "example"
    rw [hs]
  · intro hae
    show some (match prop.expectation with
      | Expectation.always => "counterexample"
      | Expectation.eventually => "counterexample"
      | Expectation.sometimes => "example") = some "counterexample"
    rcases hae with h | h
    · rw [h]
    · rw [h]

/-- C5 witness: the classification of the sometimes-property "reach" of the
example checker is "example". -/
theorem C5_witness : exChecker.discovery_classification "reach" = some "example" :=
  (C5_discovery_classification exChecker "reach" exProp rfl).1 rfl

/-- C6: the discovery lines emitted by `report` for a path print `Path[k]`
with k equal to the number of transitions — the number of states minus
one — followed by exactly one line per action of the path. -/
theorem C6_report_lines (dbg : Ac → String) (name cls : String) (p : Path St Ac)
    (hwf : p.wellFormed = true) :
    (reportDiscovery dbg name cls p).head? =
      some ("Discovered \"" ++ name ++ "\" " ++ cls ++ " " ++
        ("Path[" ++ toString (p.into_states.length - 1) ++ "]:")) ∧
    (reportDiscovery dbg name cls p).length = 1 + p.into_actions.length ∧
    p.into_actions.length = p.into_states.length - 1 := by
  have hshape : pairsShape p.pairs = true := hwf
  have hcount := pairsShape_filterMap_length p.pairs hshape
  refine ⟨?_, ?_, ?_⟩
  · show some ("Discovered \"" ++ name ++ "\" " ++ cls ++ " " ++
        ("Path[" ++ toString (p.pairs.length - 1) ++ "]:")) =
      some ("Discovered \"" ++ name ++ "\" " ++ cls ++ " " ++
        ("Path[" ++ toString (p.into_states.length - 1) ++ "]:"))
    unfold Path.into_states
    rw [List.length_map]
  · show (("Discovered \"" ++ name ++ "\" " ++ cls ++ " " ++
        ("Path[" ++ toString (p.pairs.length - 1) ++ "]:")) ::
        p.pairs.filterMap (fun sa => sa.2.map (fun a => "- " ++ dbg a))).length =
      1 + p.into_actions.length
    rw [List.length_cons]
    unfold Path.into_actions
    rw [filterMap_map_snd_length]
    omega
  · unfold Path.into_actions Path.into_states
    rw [List.length_map]
    omega

/-- C6 witness: the discovery lines of the one-step path print Path[1] and
one action line. -/
theorem C6_witness :
    (reportDiscovery (fun n => toString n) "reach" "example" exPath).head? =
      some ("Discovered \"" ++ "reach" ++ "\" " ++ "example" ++ " " ++
        ("Path[" ++ toString (exPath.into_states.length - 1) ++ "]:")) ∧
    (reportDiscovery (fun n => toString n) "reach" "example" exPath).length =
      1 + exPath.into_actions.length ∧
    exPath.into_actions.length = exPath.into_states.length - 1 :=
  C6_report_lines (fun n => toString n) "reach" "example" exPath (by decide)

/-- C7 counterexample: a checker whose model has one always-property with no
recorded discovery — so no Always/Eventually property has a discovery and
every Sometimes property has one — still panics in `assert_properties`
because checking is incomplete. -/
theorem C7_counterexample :
    (∀ p ∈ incompleteChecker.model.properties,
      (p.expectation = Expectation.sometimes →
        (incompleteChecker.discovery p.name).isSome = true) ∧
      (p.expectation ≠ Expectation.sometimes →
        incompleteChecker.discovery p.name = none)) ∧
    incompleteChecker.assert_properties ≠ Except.ok () := by
  constructor
  · decide
  · intro h
    rw [show incompleteChecker.assert_properties =
      Except.error "Discovery for live not found, but model checking is incomplete."
      from rfl] at h
    exact Except.noConfusion h

/-- C7 (amended): once checking has completed, `assert_properties` returns
normally exactly when every Sometimes property has a recorded discovery and
no Always or Eventually property does; when checking is incomplete it can
additionally panic on a property without a discovery. -/
theorem C7_assert_properties (c : CheckerState St Ac) (hdone : c.is_done = true) :
    c.assert_properties = Except.ok () ↔
      ∀ p ∈ c.model.properties,
        (p.expectation = Expectation.sometimes → (c.discovery p.name).isSome = true) ∧
        (p.expectation ≠ Expectation.sometimes → c.discovery p.name = none) :=
  assertPropertiesLoop_ok_iff c hdone c.model.properties

/-- C7 witness: the completed example checker, whose single sometimes
property has a discovery, passes `assert_properties`. -/
theorem C7_witness : exChecker.assert_properties = Except.ok () :=
  (C7_assert_properties exChecker rfl).mpr (by decide)

/-- C8: `assert_discovery` returns normally exactly when a discovery exists
for the name and the action sequence replays from some initial state to a
path that itself witnesses the property: condition true at the last state
for Sometimes, condition false at the last state for Always, and for
Eventually no state on the path satisfying the condition with an
action-less (terminal) last state; otherwise it panics. -/
theorem C8_assert_discovery [DecidableEq St] [DecidableEq Ac]
    (c : CheckerState St Ac) (name : String) (acts : List Ac) (prop : Property St)
    (hprop : Model.property c.model name = some prop) :
    c.assert_discovery name acts = Except.ok () ↔
      ((c.discovery name).isSome = true ∧
        ∃ init ∈ c.model.init_states, ∃ path,
          Path.from_actions c.model init acts = some path ∧
          ((prop.expectation = Expectation.sometimes ∧
              ∃ s, path.last_state = some s ∧ prop.condition s = true) ∨
           (prop.expectation = Expectation.always ∧
              ∃ s, path.last_state = some s ∧ prop.condition s = false) ∨
           (prop.expectation = Expectation.eventually ∧
              (∀ s ∈ path.into_states, prop.condition s = false) ∧
              ∃ s, path.into_states.getLast? = some s ∧ c.model.actions s = []))) := by
  unfold CheckerState.assert_discovery
  cases hd : c.discovery name with
  | none =>
    rcases assert_any_discovery_err c name hd with ⟨e, herr⟩
    rw [herr]
    constructor
    · intro h
      exact Except.noConfusion h
    · rintro ⟨hsome, _⟩
      simp at hsome
  | some d =>
    rw [assert_any_discovery_of_some c name d hd]
    show assertDiscoveryLoop c name acts c.model.init_states = Except.ok () ↔ _
    rw [assertDiscoveryLoop_ok_iff c name acts prop hprop c.model.init_states]
    constructor
    · rintro ⟨i, hi, path, hpath, hw⟩
      refine ⟨rfl, i, hi, path, hpath, ?_⟩
      have hvalid := (from_actions_spec c.model i acts path hpath).2.2
      have hshape := chainFrom_shape c.model path.pairs (by
        unfold Path.valid at hvalid
        simp only [Bool.and_eq_true] at hvalid
        exact hvalid.1)
      exact (witnesses_iff c.model prop path hshape).mp hw
    · rintro ⟨_, i, hi, path, hpath, hdis⟩
      have hvalid := (from_actions_spec c.model i acts path hpath).2.2
      have hshape := chainFrom_shape c.model path.pairs (by
        unfold Path.valid at hvalid
        simp only [Bool.and_eq_true] at hvalid
        exact hvalid.1)
      exact ⟨i, hi, path, hpath, (witnesses_iff c.model prop path hshape).mpr hdis⟩

/-- C8 witness: on the completed example checker, asserting the "reach"
discovery with the action sequence [1] succeeds. -/
theorem C8_witness : exChecker.assert_discovery "reach" [1] = Except.ok () :=
  (C8_assert_discovery exChecker "reach" [1] exProp rfl).mpr
    ⟨by decide, 0, by decide, exPath, by decide,
      Or.inl ⟨rfl, 1, by decide, by decide⟩⟩

/-- C9: every path produced by `from_fingerprints` or `from_actions` is
non-empty and ends in a pair whose action component is None, so `last_state`
never panics on it, and its actions number exactly one fewer than its
states. -/
theorem C9_path_shape [DecidableEq St] [DecidableEq Ac] (fp : St → Fingerprint)
    (m : Model St Ac) (fps : List Fingerprint) (init : St) (acts : List Ac)
    (p : Path St Ac)
    (h : Path.from_fingerprints fp m fps = some p ∨
         Path.from_actions m init acts = some p) :
    (p.pairs ≠ [] ∧ ∃ s, p.pairs.getLast? = some (s, none)) ∧
    p.last_state.isSome = true ∧
    p.into_actions.length + 1 = p.into_states.length := by
  have hshape : pairsShape p.pairs = true := by
    rcases h with h | h
    · cases fps with
      | nil => cases h
      | cons f rest =>
        rw [from_fingerprints_cons] at h
        cases hf : m.init_states.find? (fun s => decide (fp s = f)) with
        | none => rw [hf] at h; cases h
        | some s0 =>
          rw [hf] at h
          rcases Option.map_eq_some'.mp h with ⟨pairs, hl, hp⟩
          subst hp
          exact ffLoop_shape fp m rest s0 pairs hl
    · have hv := (from_actions_spec m init acts p h).2.2
      unfold Path.valid at hv
      simp only [Bool.and_eq_true] at hv
      exact chainFrom_shape m p.pairs hv.1
  rcases pairsShape_getLast p.pairs hshape with ⟨z, hz⟩
  refine ⟨⟨pairsShape_ne_nil hshape, z, hz⟩, ?_, ?_⟩
  · unfold Path.last_state
    rw [hz]
    rfl
  · have hlen := pairsShape_filterMap_length p.pairs hshape
    unfold Path.into_actions Path.into_states
    rw [List.length_map]
    exact hlen

/-- C9 witness: the path replayed by `from_actions` on the two-state model
has the required shape. -/
theorem C9_witness :
    (exPath.pairs ≠ [] ∧ ∃ s, exPath.pairs.getLast? = some (s, none)) ∧
    exPath.last_state.isSome = true ∧
    exPath.into_actions.length + 1 = exPath.into_states.length :=
  C9_path_shape idFp exModel [] 0 [1] exPath (Or.inr (by decide))

/-- C10: `Path::final_state` is the total variant of fingerprint replay: it
equals the last state of `Path::from_fingerprints` whenever the latter
succeeds, and is `none` exactly when the sequence is empty or cannot be
replayed. -/
theorem C10_final_state_refines (fp : St → Fingerprint) (m : Model St Ac)
    (fps : List Fingerprint) :
    Path.final_state fp m fps = (Path.from_fingerprints fp m fps).bind Path.last_state ∧
    (Path.final_state fp m fps).isSome = canReplay fp m fps :=
  ⟨final_state_eq_bind fp m fps, final_state_isSome_eq fp m fps⟩

end Stateright
